import Mathlib

/-!
Verification of the aggregation-and-ranking pipelines of the
`datafun-03-analytics` repository.

The Python sources are shallowly embedded:

* `process_csv.py`   — `get_top_10_states`, `process_csv_file`
* `process_text.py`  — `count_top_words`
* `process_excel.py` — `find_highest_price_nsn`, `process_excel_file`

Python `dict` / `collections.Counter` objects are modelled as
insertion-ordered association lists (`List (key × value)`), which is
exactly the iteration order Python guarantees.  `Counter.most_common(n)`
is documented as equivalent to a *stable* descending sort by count
followed by `take n`, which is modelled with `List.mergeSort` (stable)
below.  Python string content is modelled as `List Char` / `String`;
`str.strip()` strips the Python whitespace set (which includes the
non-breaking space `'\xa0'`).  Logging is modelled as an explicit list
of structured log events returned by each pipeline function.  Numeric
division for percentages is modelled over `ℚ`.
-/

namespace DataFun

/-! ## Python string primitives -/

/-- The characters Python's `str.strip()` removes: every character `c`
with `c.isspace()` true.  This includes the ASCII whitespace
characters, the C1 controls `\x1c`–`\x1f` and `\x85`, and the Unicode
space separators — in particular the non-breaking space `'\xa0'`. -/
def pySpaceChars : List Char :=
  [' ', '\t', '\n', '\r', '\x0b', '\x0c',
   '\x1c', '\x1d', '\x1e', '\x1f', '\x85', '\xa0',
   '\u1680', '\u2000', '\u2001', '\u2002', '\u2003', '\u2004',
   '\u2005', '\u2006', '\u2007', '\u2008', '\u2009', '\u200a',
   '\u2028', '\u2029', '\u202f', '\u205f', '\u3000']

/-- Python's `str.isspace` test for a single character. -/
def isPySpace (c : Char) : Bool := pySpaceChars.contains c

/-- Python `s.strip()` on the character list of `s`: drop the leading
and the trailing run of Python-whitespace characters. -/
def pyStrip (l : List Char) : List Char :=
  ((l.dropWhile isPySpace).reverse.dropWhile isPySpace).reverse

/-- Python `s.replace("\xa0", "")`: delete every non-breaking space. -/
def removeNbsp (l : List Char) : List Char :=
  l.filter (fun c => c != '\xa0')

/-- Header normalization of `process_csv.py` line 48:
`col.strip().replace("\xa0", "")`. -/
def normalizeField (s : String) : String :=
  String.mk (removeNbsp (pyStrip s.data))

/-- Python `s.strip()` at the `String` level (used on cell values). -/
def pyStripStr (s : String) : String := String.mk (pyStrip s.data)

/-! ### Facts about stripping and `\xa0` removal -/

lemma isPySpace_nbsp : isPySpace '\xa0' = true := by decide

/-- A list is left-stripped when dropping leading whitespace changes nothing. -/
def LeftStripped (l : List Char) : Prop := l.dropWhile isPySpace = l

lemma leftStripped_iff (l : List Char) :
    LeftStripped l ↔ l = [] ∨ ∃ c t, l = c :: t ∧ isPySpace c = false := by
  cases l with
  | nil => simp [LeftStripped]
  | cons c t =>
    unfold LeftStripped
    rw [List.dropWhile_cons]
    constructor
    · intro h
      by_cases hc : isPySpace c = true
      · rw [if_pos hc] at h
        have hlen := (List.dropWhile_suffix (l := t) isPySpace).length_le
        rw [h] at hlen
        simp at hlen
      · exact Or.inr ⟨c, t, rfl, by simpa using hc⟩
    · rintro (h | ⟨c', t', he, hc⟩)
      · exact absurd h (by simp)
      · injection he with h1 h2
        subst h1
        rw [if_neg (by simp [hc])]

lemma leftStripped_dropWhile (l : List Char) :
    LeftStripped (l.dropWhile isPySpace) := by
  induction l with
  | nil => simp [LeftStripped]
  | cons c t ih =>
    unfold LeftStripped
    rw [List.dropWhile_cons]
    by_cases hc : isPySpace c = true
    · rw [if_pos hc]; exact ih
    · rw [if_neg hc, List.dropWhile_cons, if_neg hc]

lemma removeNbsp_cons_of_not_space {c : Char} (t : List Char)
    (hc : isPySpace c = false) :
    removeNbsp (c :: t) = c :: removeNbsp t := by
  have hne : (c != '\xa0') = true := by
    rcases eq_or_ne c '\xa0' with rfl | h
    · rw [isPySpace_nbsp] at hc; cases hc
    · simpa using h
  simp [removeNbsp, List.filter_cons, hne]

lemma leftStripped_removeNbsp {l : List Char} (h : LeftStripped l) :
    LeftStripped (removeNbsp l) := by
  rcases (leftStripped_iff l).mp h with rfl | ⟨c, t, rfl, hc⟩
  · simp [LeftStripped, removeNbsp]
  · rw [removeNbsp_cons_of_not_space t hc]
    exact (leftStripped_iff _).mpr (Or.inr ⟨c, removeNbsp t, rfl, hc⟩)

lemma leftStripped_reverse_of_suffix {w v : List Char}
    (hsuf : w <:+ v) (hv : LeftStripped v.reverse) :
    LeftStripped w.reverse := by
  obtain ⟨t, rfl⟩ := hsuf
  rw [List.reverse_append] at hv
  cases hw : w.reverse with
  | nil => simp [LeftStripped, hw]
  | cons c s =>
    rw [hw] at hv
    rcases (leftStripped_iff _).mp hv with habs | ⟨c', t', he, hc⟩
    · exact absurd habs (by simp)
    · have hcc : c' = c := (List.cons.injEq .. ▸ he).1.symm
      exact (leftStripped_iff _).mpr (Or.inr ⟨c, s, rfl, hcc ▸ hc⟩)

/-- A list is fully stripped when both ends carry no whitespace. -/
def Stripped (l : List Char) : Prop :=
  LeftStripped l ∧ LeftStripped l.reverse

lemma stripped_pyStrip (l : List Char) : Stripped (pyStrip l) := by
  unfold pyStrip
  constructor
  · exact leftStripped_reverse_of_suffix
      (List.dropWhile_suffix (l := (l.dropWhile isPySpace).reverse) isPySpace)
      (by rw [List.reverse_reverse]; exact leftStripped_dropWhile l)
  · rw [List.reverse_reverse]
    exact leftStripped_dropWhile _

lemma stripped_fixed {l : List Char} (h : Stripped l) : pyStrip l = l := by
  obtain ⟨h1, h2⟩ := h
  unfold pyStrip
  rw [h1, h2, List.reverse_reverse]

lemma stripped_removeNbsp {l : List Char} (h : Stripped l) :
    Stripped (removeNbsp l) := by
  obtain ⟨h1, h2⟩ := h
  refine ⟨leftStripped_removeNbsp h1, ?_⟩
  have hrev : (removeNbsp l).reverse = removeNbsp l.reverse := by
    exact (List.filter_reverse (fun c => c != '\xa0') l).symm
  rw [hrev]
  exact leftStripped_removeNbsp h2

lemma removeNbsp_idem (l : List Char) :
    removeNbsp (removeNbsp l) = removeNbsp l := by
  simp [removeNbsp, List.filter_filter]

/-! ## Counters and `most_common`

A `collections.Counter` (and any Python `dict`) is modelled as an
association list in key-insertion order.  `Counter.most_common(n)` is
`heapq.nlargest(n, items, key=itemgetter(1))`, documented as equivalent
to `sorted(items, key, reverse=True)[:n]` with a stable sort: a stable
descending sort by count followed by `take n`. -/

/-- `counter[k] += 1`: bump the count of `k`, inserting `(k, 1)` at the
end (Python dicts append new keys in insertion order). -/
def bump (m : List (String × Nat)) (k : String) : List (String × Nat) :=
  match m with
  | [] => [(k, 1)]
  | p :: rest => if p.1 = k then (p.1, p.2 + 1) :: rest else p :: bump rest k

/-- Build a counter from a stream of keys, in encounter order. -/
def countFold (ks : List String) : List (String × Nat) :=
  ks.foldl bump []

/-- The comparison used by `most_common`: descending by count.  Ties
compare `true` both ways, and the stable sort then keeps insertion
order. -/
def countLe (a b : String × Nat) : Bool := decide (b.2 ≤ a.2)

/-- `Counter.most_common(n)`: stable descending sort by count, first
`n` entries. -/
def most_common (m : List (String × Nat)) (n : Nat) : List (String × Nat) :=
  (m.mergeSort countLe).take n

lemma countLe_trans : ∀ a b c : String × Nat,
    countLe a b = true → countLe b c = true → countLe a c = true := by
  intro a b c hab hbc
  simp only [countLe, decide_eq_true_eq] at *
  omega

lemma countLe_total : ∀ a b : String × Nat,
    (countLe a b || countLe b a) = true := by
  intro a b
  simp only [countLe, Bool.or_eq_true, decide_eq_true_eq]
  omega

lemma mem_most_common {m : List (String × Nat)} {n : Nat}
    {p : String × Nat} (h : p ∈ most_common m n) : p ∈ m :=
  (List.mergeSort_perm m countLe).mem_iff.mp
    (List.take_subset n (m.mergeSort countLe) h)

/-- C9: field-name normalization (strip leading/trailing whitespace,
then remove all non-breaking-space characters) is idempotent.  Python's
`str.strip()` treats `'\xa0'` itself as whitespace, so a stripped
string never starts or ends with whitespace even after the interior
non-breaking spaces are deleted. -/
theorem normalize_idempotent (s : String) :
    normalizeField (normalizeField s) = normalizeField s := by
  show String.mk (removeNbsp (pyStrip (removeNbsp (pyStrip s.data)))) = _
  rw [stripped_fixed (stripped_removeNbsp (stripped_pyStrip s.data)),
    removeNbsp_idem]
  rfl

/-- C6: top-N selection is a correct partial order — every entry
emitted by `most_common` has an accumulated value greater than or equal
to the accumulated value of every mapping entry not emitted. -/
theorem top_n_dominates (m : List (String × Nat)) (n : Nat)
    (x y : String × Nat) (hx : x ∈ most_common m n) (hy : y ∈ m)
    (hyn : y ∉ most_common m n) : y.2 ≤ x.2 := by
  have hsort := List.sorted_mergeSort countLe_trans countLe_total m
  have hyS : y ∈ m.mergeSort countLe :=
    (List.mergeSort_perm m countLe).mem_iff.mpr hy
  rw [← List.take_append_drop n (m.mergeSort countLe)] at hsort hyS
  rcases List.mem_append.mp hyS with hyt | hyd
  · exact absurd hyt hyn
  · have := (List.pairwise_append.mp hsort).2.2 x hx y hyd
    simpa [countLe] using this

theorem top_n_dominates_witness :
    (("a", 3) ∈ most_common [("a", 3), ("b", 1)] 1) ∧
    (("b", 1) ∈ [("a", 3), ("b", 1)]) ∧
    (("b", 1) ∉ most_common [("a", 3), ("b", 1)] 1) ∧
    (("b", 1) : String × Nat).2 ≤ (("a", 3) : String × Nat).2 :=
  ⟨by simp [most_common, List.mergeSort, List.merge, countLe], by decide,
    by simp [most_common, List.mergeSort, List.merge, countLe],
    top_n_dominates [("a", 3), ("b", 1)] 1 ("a", 3) ("b", 1)
      (by simp [most_common, List.mergeSort, List.merge, countLe]) (by decide)
      (by simp [most_common, List.mergeSort, List.merge, countLe])⟩

/-- C3: the ranking is deterministic and ties are broken by
first-encountered insertion order.  For a mapping `m` with distinct
keys, if `x` precedes `y` in `m` (insertion order), their accumulated
values are equal, and both are emitted, then `x` precedes `y` in the
output as well; re-running the ranking is definitionally deterministic
since `most_common` is a pure function of `m` and `n`. -/
theorem rank_tiebreak_insertion_order (m : List (String × Nat))
    (hm : (m.map Prod.fst).Nodup) (n : Nat) (x y : String × Nat)
    (hins : [x, y].Sublist m) (hv : x.2 = y.2)
    (hx : x ∈ most_common m n) (hy : y ∈ most_common m n) :
    [x, y].Sublist (most_common m n) ∧ most_common m n = most_common m n := by
  refine ⟨?_, rfl⟩
  have hnd : m.Nodup := List.Nodup.of_map Prod.fst hm
  have hpair : List.Pairwise (fun a b => countLe a b = true) [x, y] := by
    refine List.pairwise_pair.mpr ?_
    simp [countLe, hv]
  have hstab : [x, y].Sublist (m.mergeSort countLe) :=
    List.sublist_mergeSort countLe_trans countLe_total hpair hins
  have hnds : (m.mergeSort countLe).Nodup :=
    (List.mergeSort_perm m countLe).symm.nodup hnd
  have hsplit : ((m.mergeSort countLe).take n ++
      (m.mergeSort countLe).drop n).Nodup := by
    rw [List.take_append_drop]; exact hnds
  have hdisj := (List.nodup_append.mp hsplit).2.2
  rw [← List.take_append_drop n (m.mergeSort countLe)] at hstab
  rcases List.sublist_append_iff.mp hstab with ⟨l₁, l₂, heq, h₁, h₂⟩
  cases l₁ with
  | nil =>
    rw [List.nil_append] at heq
    have hxd : x ∈ l₂ := heq ▸ (by simp : x ∈ [x, y])
    exact absurd hx (fun hxt => hdisj hxt (h₂.subset hxd))
  | cons a l₁' =>
    cases l₁' with
    | nil =>
      rw [List.cons_append, List.nil_append] at heq
      injection heq with hxa heq'
      have hyd : y ∈ l₂ := heq' ▸ (by simp : y ∈ [y])
      exact absurd hy (fun hyt => hdisj hyt (h₂.subset hyd))
    | cons b l₁'' =>
      rw [List.cons_append, List.cons_append] at heq
      injection heq with hxa heq'
      injection heq' with hyb heq''
      obtain ⟨rfl, rfl⟩ := List.append_eq_nil.mp heq''.symm
      subst hxa
      subst hyb
      exact h₁

theorem rank_tiebreak_insertion_order_witness :
    (([("a", 2), ("b", 2), ("c", 1)].map Prod.fst).Nodup ∧
      [(("a", 2) : String × Nat), ("b", 2)].Sublist
        [("a", 2), ("b", 2), ("c", 1)] ∧
      (("a", 2) : String × Nat).2 = (("b", 2) : String × Nat).2 ∧
      ("a", 2) ∈ most_common [("a", 2), ("b", 2), ("c", 1)] 2 ∧
      ("b", 2) ∈ most_common [("a", 2), ("b", 2), ("c", 1)] 2) ∧
    ([(("a", 2) : String × Nat), ("b", 2)].Sublist
        (most_common [("a", 2), ("b", 2), ("c", 1)] 2) ∧
      most_common [("a", 2), ("b", 2), ("c", 1)] 2 =
        most_common [("a", 2), ("b", 2), ("c", 1)] 2) :=
  ⟨⟨by decide, by decide, by decide,
      by simp [most_common, List.mergeSort, List.merge, countLe],
      by simp [most_common, List.mergeSort, List.merge, countLe]⟩,
    rank_tiebreak_insertion_order [("a", 2), ("b", 2), ("c", 1)]
      (by decide) 2 ("a", 2) ("b", 2) (by decide) (by decide)
      (by simp [most_common, List.mergeSort, List.merge, countLe])
      (by simp [most_common, List.mergeSort, List.merge, countLe])⟩

/-! ## The CSV pipeline (`process_csv.py`)

A parsed CSV file is a header row plus data rows; `csv.DictReader`
pairs each row's cells positionally with the (reassigned, normalized)
fieldnames, later duplicates winning, and `row.get("State", "")`
defaults to the empty string.  The logging collaborator is modelled as
a list of structured events. -/

/-- Log events emitted by `get_top_10_states`. -/
inductive CsvLog where
  | missingStateColumn (foundHeaders : List String)
  | noStateData
deriving DecidableEq

/-- A parsed CSV input: the header row and the data rows. -/
structure CsvInput where
  fieldnames : List String
  rows : List (List String)

/-- `dict(zip(headers, row)).get(k, "")`: positional pairing of headers
with cells, last duplicate header wins, missing key defaults to `""`. -/
def dictGet (hs vs : List String) (k : String) : String :=
  (((hs.zip vs).foldl (fun acc p => if p.1 = k then some p.2 else acc)
    none)).getD ""

/-- Line 48 of `process_csv.py`: every fieldname stripped and freed of
non-breaking spaces. -/
def normalizedHeaders (c : CsvInput) : List String :=
  c.fieldnames.map normalizeField

/-- The stream of `row.get("State", "").strip()` values that are
non-empty (the loop body guards `if state:`). -/
def stateValues (c : CsvInput) : List String :=
  (c.rows.map (fun row =>
    pyStripStr (dictGet (normalizedHeaders c) row "State"))).filter
    (fun s => s != "")

/-- The `state_counts` Counter after the row loop. -/
def csvStateCounts (c : CsvInput) : List (String × Nat) :=
  countFold (stateValues c)

/-- `total_failures = sum(state_counts.values())`. -/
def csvTotal (c : CsvInput) : Nat :=
  ((csvStateCounts c).map Prod.snd).sum

/-- `get_top_10_states`: schema check on the normalized headers, count
aggregation, early empty return, then `most_common(10)` with
percentage `(count / total_failures) * 100` over `ℚ`.  The second
component is the list of logged errors. -/
def get_top_10_states (c : CsvInput) :
    List (String × Nat × ℚ) × List CsvLog :=
  if "State" ∈ normalizedHeaders c then
    if csvStateCounts c = [] then ([], [CsvLog.noStateData])
    else
      ((most_common (csvStateCounts c) 10).map
        (fun p => (p.1, p.2, ((p.2 : ℚ) / (csvTotal c : ℚ)) * 100)), [])
  else ([], [CsvLog.missingStateColumn (normalizedHeaders c)])

/-- Right-pad with spaces to width `w`, Python's `f"{s:<w}"`. -/
def padRight (s : String) (w : Nat) : String :=
  s ++ String.mk (List.replicate (w - s.length) ' ')

/-- The four title/header lines `process_csv_file` always writes. -/
def csvReportHeader : List String :=
  ["Top 10 States with Most Failed Banks:",
   String.mk (List.replicate 40 '='),
   padRight "State" 10 ++ padRight "Count" 10 ++ "Percentage",
   String.mk (List.replicate 40 '=')]

/-- `process_csv_file`: the output file it writes, as header lines plus
the structured body entries (each body entry is rendered as one line
with a two-decimal percentage).  `none` would mean no file is written;
the code opens the output file and writes the title block
unconditionally, so the result is always `some`. -/
def process_csv_file (c : CsvInput) :
    Option (List String × List (String × Nat × ℚ)) :=
  some (csvReportHeader, (get_top_10_states c).1)

/-! ### Counter value positivity -/

lemma bump_pos {m : List (String × Nat)} {k : String}
    (h : ∀ p ∈ m, 1 ≤ p.2) : ∀ p ∈ bump m k, 1 ≤ p.2 := by
  induction m with
  | nil =>
    intro p hp
    unfold bump at hp
    rw [List.mem_singleton] at hp
    subst hp
    simp
  | cons q rest ih =>
    intro p hp
    unfold bump at hp
    by_cases hk : q.1 = k
    · rw [if_pos hk] at hp
      rcases List.mem_cons.mp hp with rfl | hp'
      · simp
      · exact h p (List.mem_cons_of_mem q hp')
    · rw [if_neg hk] at hp
      rcases List.mem_cons.mp hp with rfl | hp'
      · exact h p (List.mem_cons_self p rest)
      · exact ih (fun r hr => h r (List.mem_cons_of_mem q hr)) p hp'

lemma foldl_bump_pos (ks : List String) :
    ∀ m : List (String × Nat), (∀ p ∈ m, 1 ≤ p.2) →
      ∀ p ∈ ks.foldl bump m, 1 ≤ p.2 := by
  induction ks with
  | nil => intro m hm p hp; exact hm p hp
  | cons k t ih =>
    intro m hm p hp
    exact ih (bump m k) (bump_pos hm) p hp

lemma countFold_pos (ks : List String) : ∀ p ∈ countFold ks, 1 ≤ p.2 :=
  foldl_bump_pos ks [] (by simp)

/-- C10: the percentage division of `get_top_10_states` never divides
by zero — it is guarded by the early return on an empty counter, every
accumulated count is at least 1, and hence the denominator
`total_failures` is at least 1 whenever the division is reached. -/
theorem csv_no_division_by_zero (c : CsvInput) :
    (∀ p ∈ csvStateCounts c, 1 ≤ p.2) ∧
      (csvStateCounts c ≠ [] → 1 ≤ csvTotal c) := by
  refine ⟨countFold_pos (stateValues c), fun hne => ?_⟩
  cases hc : csvStateCounts c with
  | nil => exact absurd hc hne
  | cons q rest =>
    have hq : 1 ≤ q.2 := countFold_pos (stateValues c) q (by
      have hc' : countFold (stateValues c) = q :: rest := hc
      rw [hc']
      simp)
    unfold csvTotal
    rw [hc]
    simp only [List.map_cons, List.sum_cons]
    omega

theorem csv_no_division_by_zero_witness :
    (∀ p ∈ csvStateCounts ⟨["State"], [["TX"]]⟩, 1 ≤ p.2) ∧
      (csvStateCounts ⟨["State"], [["TX"]]⟩ ≠ [] →
        1 ≤ csvTotal ⟨["State"], [["TX"]]⟩) :=
  csv_no_division_by_zero ⟨["State"], [["TX"]]⟩

/-- C2: every entry `(state, count, pct)` that `get_top_10_states`
returns corresponds to an entry of the full accumulated mapping, and
its percentage is `100 * count / total` where `total` sums the counts
of every group key of the mapping, not just the ten emitted entries. -/
theorem csv_percentage_of_full_total (c : CsvInput) (s : String)
    (cnt : Nat) (pct : ℚ)
    (h : (s, cnt, pct) ∈ (get_top_10_states c).1) :
    (s, cnt) ∈ csvStateCounts c ∧ pct = 100 * cnt / (csvTotal c : ℚ) := by
  unfold get_top_10_states at h
  by_cases h1 : "State" ∈ normalizedHeaders c
  · rw [if_pos h1] at h
    by_cases h2 : csvStateCounts c = []
    · rw [if_pos h2] at h
      simp at h
    · rw [if_neg h2] at h
      obtain ⟨p, hp, he⟩ := List.mem_map.mp h
      obtain ⟨p1, p2⟩ := p
      injection he with he1 he2
      injection he2 with he2 he3
      subst he1
      subst he2
      constructor
      · exact mem_most_common hp
      · rw [← he3]
        ring
  · rw [if_neg h1] at h
    simp at h

theorem csv_percentage_of_full_total_witness :
    (("TX", 1, (100 : ℚ)) ∈ (get_top_10_states ⟨["State"], [["TX"]]⟩).1) ∧
      (("TX", 1) ∈ csvStateCounts ⟨["State"], [["TX"]]⟩ ∧
        (100 : ℚ) = 100 * 1 / (csvTotal ⟨["State"], [["TX"]]⟩ : ℚ)) := by
  have hmem : ("TX", 1, (100 : ℚ)) ∈
      (get_top_10_states ⟨["State"], [["TX"]]⟩).1 := by
    have hc : csvStateCounts ⟨["State"], [["TX"]]⟩ = [("TX", 1)] := by decide
    have hh : "State" ∈ normalizedHeaders ⟨["State"], [["TX"]]⟩ := by decide
    have ht : csvTotal ⟨["State"], [["TX"]]⟩ = 1 := by decide
    unfold get_top_10_states
    rw [if_pos hh, hc, ht]
    simp [most_common, List.mergeSort]
  exact ⟨hmem,
    csv_percentage_of_full_total ⟨["State"], [["TX"]]⟩ "TX" 1 100 hmem⟩

/-- The concrete schema-failure input for C1: the lone header
`"state_name"` does not normalize to `"State"`. -/
def csvNoState : CsvInput := ⟨["state_name"], [["TX"]]⟩

/-- C1 counterexample: on a CSV whose normalized headers lack
`"State"`, `process_csv_file` still produces an output file (the title
block is written unconditionally), refuting "no output file is
produced". -/
theorem csv_schema_failure_still_writes :
    ("State" ∉ normalizedHeaders csvNoState) ∧
      process_csv_file csvNoState ≠ none := by
  constructor
  · decide
  · simp [process_csv_file]

/-- C1 amended: when schema validation fails, `get_top_10_states` logs
the schema error and returns the empty result, and `process_csv_file`
writes an output file consisting of the title/header lines with an
empty body (rather than writing no file). -/
theorem csv_schema_failure_behaviour (c : CsvInput)
    (h : "State" ∉ normalizedHeaders c) :
    (get_top_10_states c).1 = [] ∧
      (get_top_10_states c).2 =
        [CsvLog.missingStateColumn (normalizedHeaders c)] ∧
      process_csv_file c = some (csvReportHeader, []) := by
  have h1 : get_top_10_states c =
      ([], [CsvLog.missingStateColumn (normalizedHeaders c)]) := by
    unfold get_top_10_states
    rw [if_neg h]
  refine ⟨by rw [h1], by rw [h1], ?_⟩
  unfold process_csv_file
  rw [h1]

theorem csv_schema_failure_behaviour_witness :
    ("State" ∉ normalizedHeaders csvNoState) ∧
      ((get_top_10_states csvNoState).1 = [] ∧
        (get_top_10_states csvNoState).2 =
          [CsvLog.missingStateColumn (normalizedHeaders csvNoState)] ∧
        process_csv_file csvNoState = some (csvReportHeader, [])) :=
  ⟨by decide, csv_schema_failure_behaviour csvNoState (by decide)⟩

/-! ## The text pipeline (`process_text.py`)

`count_top_words` reads all lines, rejects the file when it has fewer
than `skip_lines` lines, joins the slice `lines[skip_lines:stop_line]`
with spaces, lowercases it, and counts the matches of the regex
`\b[a-zA-Z]+\b`: the maximal word-character runs made up entirely of
ASCII letters.  Word characters are modelled as the ASCII fragment
`[A-Za-z0-9_]` of Python's `\w` (the inputs of this repository are
ASCII; non-ASCII word characters are out of the modelled scope). -/

/-- Log events emitted by `count_top_words`. -/
inductive TextLog where
  | rangeError (skipLines : Nat)
deriving DecidableEq

/-- A regex word character (ASCII fragment of Python's `\w`). -/
def isWordChar (c : Char) : Bool := c.isAlpha || c.isDigit || c == '_'

/-- The maximal runs of word characters of a character list, in
order. -/
def wordRuns : List Char → List (List Char)
  | [] => []
  | c :: t =>
    if isWordChar c then
      (c :: t.takeWhile isWordChar) :: wordRuns (t.dropWhile isWordChar)
    else
      wordRuns t
termination_by l => l.length
decreasing_by
  · have h := (List.dropWhile_suffix (l := t) isWordChar).length_le
    simp only [List.length_cons]
    omega
  · simp [Nat.lt_succ_self]

/-- `re.findall(r'\b[a-zA-Z]+\b', content)`: a word-character run is a
match exactly when it consists only of ASCII letters (a run containing
a digit or underscore has no interior word boundary, so no sub-run of
it matches). -/
def tokenize (l : List Char) : List String :=
  ((wordRuns l).filter (fun r => r.all Char.isAlpha)).map
    (fun r => String.mk r)

/-- The tokens of the joined, lowercased line slice
`lines[skip_lines:stop_line]` (Python slices are half-open and clamp at
the list length). -/
def sliceTokens (lines : List String) (skip stop : Nat) : List String :=
  tokenize (String.intercalate " "
    ((lines.drop skip).take (stop - skip))).toLower.data

/-- `count_top_words`: range guard, then `most_common(top_n)` of the
word counts of the line slice.  The second component is the list of
logged errors. -/
def count_top_words (lines : List String) (top_n skip stop : Nat) :
    List (String × Nat) × List TextLog :=
  if lines.length < skip then ([], [TextLog.rangeError skip])
  else (most_common (countFold (sliceTokens lines skip stop)) top_n, [])

/-! ### Counter keys come from the key stream -/

lemma bump_keys_subset (m : List (String × Nat)) (k : String) :
    ∀ p ∈ bump m k, p.1 = k ∨ p.1 ∈ m.map Prod.fst := by
  induction m with
  | nil =>
    intro p hp
    unfold bump at hp
    rw [List.mem_singleton] at hp
    subst hp
    exact Or.inl rfl
  | cons q rest ih =>
    intro p hp
    unfold bump at hp
    by_cases hk : q.1 = k
    · rw [if_pos hk] at hp
      rcases List.mem_cons.mp hp with rfl | hp'
      · exact Or.inl hk
      · refine Or.inr ?_
        rw [List.map_cons]
        exact List.mem_cons_of_mem _ (List.mem_map_of_mem Prod.fst hp')
    · rw [if_neg hk] at hp
      rcases List.mem_cons.mp hp with rfl | hp'
      · exact Or.inr (by simp)
      · rcases ih p hp' with h | h
        · exact Or.inl h
        · refine Or.inr ?_
          rw [List.map_cons]
          exact List.mem_cons_of_mem _ h

lemma foldl_bump_keys (ks : List String) :
    ∀ m : List (String × Nat), ∀ p ∈ ks.foldl bump m,
      p.1 ∈ ks ∨ p.1 ∈ m.map Prod.fst := by
  induction ks with
  | nil => intro m p hp; exact Or.inr (List.mem_map_of_mem Prod.fst hp)
  | cons k t ih =>
    intro m p hp
    rcases ih (bump m k) p hp with h | h
    · exact Or.inl (List.mem_cons_of_mem k h)
    · obtain ⟨q, hq, hqe⟩ := List.mem_map.mp h
      rcases bump_keys_subset m k q hq with h' | h'
      · exact Or.inl (by rw [← hqe, h']; simp)
      · exact Or.inr (hqe ▸ h')

lemma countFold_keys (ks : List String) :
    ∀ p ∈ countFold ks, p.1 ∈ ks := by
  intro p hp
  rcases foldl_bump_keys ks [] p hp with h | h
  · exact h
  · simp at h

/-- C7: `count_top_words` tokenizes only the half-open line range
`[skip_lines, stop_line)` — two inputs that pass the range guard and
agree on that slice produce identical results, and every counted word
is a token of the joined slice (so lines outside the range contribute
no tokens to any count). -/
theorem text_tokenizes_only_line_range (l₁ l₂ : List String)
    (n skip stop : Nat) (h₁ : skip ≤ l₁.length) (h₂ : skip ≤ l₂.length)
    (hs : (l₁.drop skip).take (stop - skip) =
      (l₂.drop skip).take (stop - skip)) :
    count_top_words l₁ n skip stop = count_top_words l₂ n skip stop ∧
      ∀ p ∈ (count_top_words l₁ n skip stop).1,
        p.1 ∈ sliceTokens l₁ skip stop := by
  have e₁ : count_top_words l₁ n skip stop =
      (most_common (countFold (sliceTokens l₁ skip stop)) n, []) := by
    unfold count_top_words
    rw [if_neg (by omega)]
  have e₂ : count_top_words l₂ n skip stop =
      (most_common (countFold (sliceTokens l₂ skip stop)) n, []) := by
    unfold count_top_words
    rw [if_neg (by omega)]
  have hst : sliceTokens l₁ skip stop = sliceTokens l₂ skip stop := by
    unfold sliceTokens
    rw [hs]
  constructor
  · rw [e₁, e₂, hst]
  · intro p hp
    rw [e₁] at hp
    exact countFold_keys _ p (mem_most_common hp)

theorem text_tokenizes_only_line_range_witness :
    (1 ≤ (["header", "alpha beta", "footer"] : List String).length ∧
      1 ≤ (["X", "alpha beta", "Y", "Z"] : List String).length ∧
      ((["header", "alpha beta", "footer"] : List String).drop 1).take (2 - 1)
        = ((["X", "alpha beta", "Y", "Z"] : List String).drop 1).take (2 - 1)) ∧
    (count_top_words ["header", "alpha beta", "footer"] 5 1 2 =
        count_top_words ["X", "alpha beta", "Y", "Z"] 5 1 2 ∧
      ∀ p ∈ (count_top_words ["header", "alpha beta", "footer"] 5 1 2).1,
        p.1 ∈ sliceTokens ["header", "alpha beta", "footer"] 1 2) :=
  ⟨⟨by decide, by decide, by decide⟩,
    text_tokenizes_only_line_range ["header", "alpha beta", "footer"]
      ["X", "alpha beta", "Y", "Z"] 5 1 2 (by decide) (by decide) (by decide)⟩

/-- C8: when the file has strictly fewer lines than `skip_lines`,
`count_top_words` logs a range error and returns the empty result list
instead of raising. -/
theorem text_range_error_recovered (lines : List String)
    (n skip stop : Nat) (h : lines.length < skip) :
    count_top_words lines n skip stop = ([], [TextLog.rangeError skip]) := by
  unfold count_top_words
  rw [if_pos h]

theorem text_range_error_recovered_witness :
    (["only line"] : List String).length < 2 ∧
      count_top_words ["only line"] 5 2 10 = ([], [TextLog.rangeError 2]) :=
  ⟨by decide, text_range_error_recovered ["only line"] 5 2 10 (by decide)⟩

/-! ## The Excel pipeline (`process_excel.py`)

`find_highest_price_nsn` resolves the four required columns via the
header row once; a data row is therefore modelled as its four
projected cells.  Empty text cells (openpyxl `None` or `""`, both
falsy in the `if rep_office and nsn and common_name` guard) are
modelled as `""`; the `isinstance(price, (int, float))` test is
modelled by `Option ℚ`, `none` standing for a missing or non-numeric
cell.  The `rep_office_highest` dict is an insertion-ordered
association list from office to the stored `(NSN, common_name, price)`
tuple. -/

/-- A spreadsheet data row, projected to the four resolved columns. -/
structure ExcelRow where
  rep_office : String
  nsn : String
  common_name : String
  price : Option ℚ
deriving DecidableEq

/-- The row guard of line 66:
`if rep_office and nsn and common_name and isinstance(price, (int, float))`. -/
def validRow (r : ExcelRow) : Bool :=
  r.rep_office != "" && r.nsn != "" && r.common_name != "" &&
    r.price.isSome

/-- Python dict assignment to an existing key: replace the stored
value in place, preserving the key's position. -/
def updateOffice (m : List (String × String × String × ℚ)) (k : String)
    (v : String × String × ℚ) : List (String × String × String × ℚ) :=
  m.map (fun p => if p.1 = k then (k, v) else p)

/-- One iteration of the row loop of `find_highest_price_nsn` (lines
59–68): on a valid row, store the row's tuple when the office is new
or when its price strictly exceeds the stored price (`price >
rep_office_highest[rep_office][2]`). -/
def stepRow (m : List (String × String × String × ℚ)) (r : ExcelRow) :
    List (String × String × String × ℚ) :=
  if validRow r then
    match r.price with
    | some q =>
      match m.lookup r.rep_office with
      | none => m ++ [(r.rep_office, (r.nsn, r.common_name, q))]
      | some v =>
        if v.2.2 < q then
          updateOffice m r.rep_office (r.nsn, r.common_name, q)
        else m
    | none => m
  else m

/-- `find_highest_price_nsn`: fold the row loop over the data rows,
starting from the empty dict. -/
def find_highest_price_nsn (rows : List ExcelRow) :
    List (String × String × String × ℚ) :=
  rows.foldl stepRow []

/-- `process_excel_file`: title block plus the body entries, written
by iterating `highest_prices.items()` — i.e. in dict insertion order.
Each body entry is rendered as one fixed-width line. -/
def process_excel_file (rows : List ExcelRow) :
    List String × List (String × String × String × ℚ) :=
  (["Highest Price NSN per rep_office:",
    String.mk (List.replicate 80 '='),
    padRight "Rep Office" 20 ++ padRight "NSN" 20 ++
      padRight "Common Name" 20 ++ "Price",
    String.mk (List.replicate 80 '=')],
   find_highest_price_nsn rows)

/-! ### Association-list facts for the office dict -/

lemma lookup_updateOffice (m : List (String × String × String × ℚ))
    (k : String) (v : String × String × ℚ)
    (h : m.lookup k ≠ none) : (updateOffice m k v).lookup k = some v := by
  induction m with
  | nil => simp [List.lookup] at h
  | cons p rest ih =>
    by_cases hk : p.1 = k
    · subst hk
      have hstep : updateOffice (p :: rest) p.1 v =
          (p.1, v) :: updateOffice rest p.1 v := by
        simp [updateOffice]
      rw [hstep]
      simp [List.lookup]
    · have hne : (k == p.1) = false := by
        simp only [beq_eq_false_iff_ne, ne_eq]
        exact fun he => hk he.symm
      have hstep : updateOffice (p :: rest) k v =
          p :: updateOffice rest k v := by
        simp [updateOffice, if_neg hk]
      rw [hstep]
      simp only [List.lookup, hne] at h ⊢
      exact ih h

lemma lookup_append_new (m : List (String × String × String × ℚ))
    (k : String) (v : String × String × ℚ)
    (h : m.lookup k = none) :
    (m ++ [(k, v)]).lookup k = some v := by
  induction m with
  | nil => simp [List.lookup]
  | cons p rest ih =>
    by_cases hk : (k == p.1) = true
    · simp only [List.lookup, hk] at h
      cases h
    · have hk' : (k == p.1) = false := by
        cases hkk : (k == p.1) with
        | true => exact absurd hkk hk
        | false => rfl
      simp only [List.lookup, hk'] at h
      simp only [List.cons_append, List.lookup, hk']
      exact ih h

/-- C4: in extremum mode, one loop step over a valid row replaces the
stored `(NSN, common_name, price)` tuple of its `rep_office` exactly
when the row's price is strictly greater than the stored price (ties
keep the earlier tuple), and a first valid observation of an office
always occupies the initial slot. -/
theorem excel_extremum_replace_iff_greater
    (m : List (String × String × String × ℚ)) (r : ExcelRow) (q : ℚ)
    (hq : r.price = some q)
    (hval : r.rep_office ≠ "" ∧ r.nsn ≠ "" ∧ r.common_name ≠ "") :
    (∀ v, m.lookup r.rep_office = some v →
      (stepRow m r).lookup r.rep_office =
        some (if v.2.2 < q then (r.nsn, r.common_name, q) else v)) ∧
    (m.lookup r.rep_office = none →
      (stepRow m r).lookup r.rep_office =
        some (r.nsn, r.common_name, q)) := by
  obtain ⟨office, nsn, cname, price⟩ := r
  simp only at hq
  subst hq
  obtain ⟨hv1, hv2, hv3⟩ := hval
  simp only at hv1 hv2 hv3
  have hguard : validRow ⟨office, nsn, cname, some q⟩ = true := by
    simp [validRow, hv1, hv2, hv3]
  constructor
  · intro v hv
    have hv' : List.lookup office m = some v := hv
    simp only [stepRow, if_pos hguard, hv']
    by_cases hlt : v.2.2 < q
    · rw [if_pos hlt, if_pos hlt]
      exact lookup_updateOffice m office (nsn, cname, q)
        (by rw [hv']; exact fun he => Option.noConfusion he)
    · rw [if_neg hlt, if_neg hlt]
      exact hv'
  · intro hnone
    have hn' : List.lookup office m = none := hnone
    simp only [stepRow, if_pos hguard, hn']
    exact lookup_append_new m office (nsn, cname, q) hn'

theorem excel_extremum_replace_iff_greater_witness :
    ((⟨"A", "n1", "c1", some 25⟩ : ExcelRow).price = some 25 ∧
      ((⟨"A", "n1", "c1", some 25⟩ : ExcelRow).rep_office ≠ "" ∧
        (⟨"A", "n1", "c1", some 25⟩ : ExcelRow).nsn ≠ "" ∧
        (⟨"A", "n1", "c1", some 25⟩ : ExcelRow).common_name ≠ "")) ∧
    ((∀ v, [("A", ("n0", "c0", (10 : ℚ)))].lookup
        (⟨"A", "n1", "c1", some 25⟩ : ExcelRow).rep_office = some v →
      (stepRow [("A", ("n0", "c0", (10 : ℚ)))]
          ⟨"A", "n1", "c1", some 25⟩).lookup
          (⟨"A", "n1", "c1", some 25⟩ : ExcelRow).rep_office =
        some (if v.2.2 < 25 then
          ((⟨"A", "n1", "c1", some 25⟩ : ExcelRow).nsn,
            (⟨"A", "n1", "c1", some 25⟩ : ExcelRow).common_name, 25)
          else v)) ∧
      ([("A", ("n0", "c0", (10 : ℚ)))].lookup
          (⟨"A", "n1", "c1", some 25⟩ : ExcelRow).rep_office = none →
        (stepRow [("A", ("n0", "c0", (10 : ℚ)))]
            ⟨"A", "n1", "c1", some 25⟩).lookup
            (⟨"A", "n1", "c1", some 25⟩ : ExcelRow).rep_office =
          some ((⟨"A", "n1", "c1", some 25⟩ : ExcelRow).nsn,
            (⟨"A", "n1", "c1", some 25⟩ : ExcelRow).common_name, 25))) :=
  ⟨⟨rfl, by decide, by decide, by decide⟩,
    excel_extremum_replace_iff_greater [("A", ("n0", "c0", (10 : ℚ)))]
      ⟨"A", "n1", "c1", some 25⟩ 25 rfl ⟨by decide, by decide, by decide⟩⟩

/-! ### Office keys of the accumulated dict -/

lemma keys_updateOffice (m : List (String × String × String × ℚ))
    (k : String) (v : String × String × ℚ) :
    (updateOffice m k v).map Prod.fst = m.map Prod.fst := by
  unfold updateOffice
  rw [List.map_map]
  apply List.map_congr_left
  intro p hp
  by_cases h : p.1 = k
  · simp [h]
  · simp [h]

lemma lookup_none_iff_keys (m : List (String × String × String × ℚ))
    (k : String) : m.lookup k = none ↔ k ∉ m.map Prod.fst := by
  induction m with
  | nil => simp [List.lookup]
  | cons p rest ih =>
    by_cases hk : k = p.1
    · have hbe : (k == p.1) = true := beq_iff_eq.mpr hk
      simp [List.lookup, hbe, hk]
    · have hbe : (k == p.1) = false := by
        simp only [beq_eq_false_iff_ne, ne_eq]
        exact hk
      simp [List.lookup, hbe, ih, hk]

lemma mem_keys_stepRow (m : List (String × String × String × ℚ))
    (r : ExcelRow) (o : String) :
    o ∈ (stepRow m r).map Prod.fst ↔
      o ∈ m.map Prod.fst ∨ (validRow r = true ∧ r.rep_office = o) := by
  by_cases hval : validRow r = true
  · cases hp : r.price with
    | none =>
      exfalso
      simp [validRow, hp] at hval
    | some q =>
      cases hl : m.lookup r.rep_office with
      | none =>
        have hred : stepRow m r =
            m ++ [(r.rep_office, (r.nsn, r.common_name, q))] := by
          simp only [stepRow, if_pos hval, hp, hl]
        rw [hred, List.map_append]
        constructor
        · intro h
          rcases List.mem_append.mp h with h | h
          · exact Or.inl h
          · simp at h
            exact Or.inr ⟨hval, h.symm⟩
        · rintro (h | ⟨-, rfl⟩)
          · exact List.mem_append.mpr (Or.inl h)
          · exact List.mem_append.mpr (Or.inr (by simp))
      | some v =>
        have hofm : r.rep_office ∈ m.map Prod.fst := by
          by_contra hc
          rw [← lookup_none_iff_keys] at hc
          rw [hc] at hl
          cases hl
        have hred : stepRow m r =
            if v.2.2 < q then
              updateOffice m r.rep_office (r.nsn, r.common_name, q)
            else m := by
          simp only [stepRow, if_pos hval, hp, hl]
        rw [hred]
        by_cases hlt : v.2.2 < q
        · rw [if_pos hlt, keys_updateOffice]
          constructor
          · exact Or.inl
          · rintro (h | ⟨-, rfl⟩)
            · exact h
            · exact hofm
        · rw [if_neg hlt]
          constructor
          · exact Or.inl
          · rintro (h | ⟨-, rfl⟩)
            · exact h
            · exact hofm
  · simp only [stepRow, if_neg hval]
    constructor
    · exact Or.inl
    · rintro (h | ⟨hv, -⟩)
      · exact h
      · exact absurd hv hval

lemma keys_nodup_stepRow (m : List (String × String × String × ℚ))
    (r : ExcelRow) (h : (m.map Prod.fst).Nodup) :
    ((stepRow m r).map Prod.fst).Nodup := by
  by_cases hval : validRow r = true
  · cases hp : r.price with
    | none =>
      simp only [stepRow, if_pos hval, hp]
      exact h
    | some q =>
      cases hl : m.lookup r.rep_office with
      | none =>
        have hred : stepRow m r =
            m ++ [(r.rep_office, (r.nsn, r.common_name, q))] := by
          simp only [stepRow, if_pos hval, hp, hl]
        rw [hred, List.map_append]
        have hno : r.rep_office ∉ m.map Prod.fst :=
          (lookup_none_iff_keys m _).mp hl
        rw [List.nodup_append]
        refine ⟨h, List.nodup_singleton _, ?_⟩
        intro a ha hb
        simp at hb
        subst hb
        exact hno ha
      | some v =>
        have hred : stepRow m r =
            if v.2.2 < q then
              updateOffice m r.rep_office (r.nsn, r.common_name, q)
            else m := by
          simp only [stepRow, if_pos hval, hp, hl]
        rw [hred]
        by_cases hlt : v.2.2 < q
        · rw [if_pos hlt, keys_updateOffice]
          exact h
        · rw [if_neg hlt]
          exact h
  · simp only [stepRow, if_neg hval]
    exact h

lemma mem_keys_fold (rows : List ExcelRow) :
    ∀ (m : List (String × String × String × ℚ)) (o : String),
      o ∈ (rows.foldl stepRow m).map Prod.fst ↔
        o ∈ m.map Prod.fst ∨
          ∃ r ∈ rows, validRow r = true ∧ r.rep_office = o := by
  induction rows with
  | nil => simp
  | cons r t ih =>
    intro m o
    rw [List.foldl_cons, ih (stepRow m r) o, mem_keys_stepRow]
    constructor
    · rintro ((h | h) | h)
      · exact Or.inl h
      · exact Or.inr ⟨r, by simp, h⟩
      · obtain ⟨r', hr', hh⟩ := h
        exact Or.inr ⟨r', by simp [hr'], hh⟩
    · rintro (h | ⟨r', hr', hh⟩)
      · exact Or.inl (Or.inl h)
      · rcases List.mem_cons.mp hr' with rfl | hr''
        · exact Or.inl (Or.inr hh)
        · exact Or.inr ⟨r', hr'', hh⟩

lemma keys_nodup_fold (rows : List ExcelRow) :
    ∀ m : List (String × String × String × ℚ),
      (m.map Prod.fst).Nodup → ((rows.foldl stepRow m).map Prod.fst).Nodup := by
  induction rows with
  | nil => intro m h; exact h
  | cons r t ih =>
    intro m h
    exact ih _ (keys_nodup_stepRow m r h)

/-- The concrete input for C5: office `"B"` is encountered before
office `"A"`, so the dict iterates `B` first. -/
def exExcelRows : List ExcelRow :=
  [⟨"B", "n1", "c1", some 5⟩, ⟨"A", "n2", "c2", some 10⟩]

/-- C5 counterexample: the report body of `process_excel_file` is the
dict in insertion order, refuting "sorted ... in ascending order of
rep_office key" — with offices first seen in the order `B`, `A`, the
body lists `B` before `A`. -/
theorem excel_report_not_sorted_by_key :
    (process_excel_file exExcelRows).2 =
      [("B", ("n1", "c1", (5 : ℚ))), ("A", ("n2", "c2", (10 : ℚ)))] ∧
      ¬ List.Pairwise (fun a b => a.1 < b.1)
        (process_excel_file exExcelRows).2 := by
  refine ⟨rfl, fun hp => ?_⟩
  have hp' : List.Pairwise (fun a b => a.1 < b.1)
      [("B", ("n1", "c1", (5 : ℚ))), ("A", ("n2", "c2", (10 : ℚ)))] := hp
  cases hp' with
  | cons h1 h2 =>
    have hBA : ("B" : String) < "A" :=
      h1 ("A", ("n2", "c2", (10 : ℚ))) (by simp)
    rw [String.lt_iff_toList_lt] at hBA
    exact absurd hBA (by decide)

/-- C5 amended: the extremum-mode report applies no top-N cutoff and
lists every rep_office exactly once — in first-encountered (dict
insertion) order, not sorted by key: the body is the accumulated
mapping itself, its office keys are pairwise distinct, and an office
appears exactly when some valid row carries it. -/
theorem excel_report_lists_every_office (rows : List ExcelRow) :
    (process_excel_file rows).2 = find_highest_price_nsn rows ∧
      ((find_highest_price_nsn rows).map Prod.fst).Nodup ∧
      ∀ o : String, o ∈ (find_highest_price_nsn rows).map Prod.fst ↔
        ∃ r ∈ rows, validRow r = true ∧ r.rep_office = o := by
  refine ⟨rfl, keys_nodup_fold rows [] (by simp), fun o => ?_⟩
  unfold find_highest_price_nsn
  rw [mem_keys_fold rows [] o]
  simp

end DataFun
